import Mathlib

/-!
Verification development for the skill-classification engine of the
dcc-custom-class-sheet module (src/scripts/init.js, src/scripts/utils.js and
the sheet subclass).  The JavaScript functions are embedded shallowly:

* Strings are Lean String (a list of unicode scalar characters), matching
  JavaScript strings on every input the module handles.
* The two regular expressions of init.js are embedded by deterministic
  functions that implement the exact ECMAScript backtracking semantics,
  derived by hand and documented at each definition:
  REGEX_PREFIXED_SKILL and REGEX_NAMING_ITEM.
* Item records carry the fields the engine reads (id, type, name,
  description, updateTime); actor.items is a Lean list in iteration order.
* Array.prototype.sort with a comparator cmp is embedded as the stable
  List.mergeSort with the boolean relation le a b := cmp a b <= 0.
  localeCompare with sensitivity "base" is embedded as code-point
  comparison of the lower-cased strings, and toLowerCase as the
  character-wise Char.toLower map.
* parseInt on a non-empty decimal-digit string is embedded as the exact
  natural-number value.
-/

namespace DCCSheet

/-- Whitespace class of the ECMAScript regular-expression escape \s and of
String.prototype.trim: space, tab, line feed, vertical tab, form feed,
carriage return, and the unicode space characters. -/
def isJSWS (c : Char) : Bool :=
  c = ' ' || c = '\t' || c = '\n' || c = '\x0b' || c = '\x0c' || c = '\r' ||
  c = '\u00a0' || c = '\u1680' ||
  ('\u2000' ≤ c && c ≤ '\u200a') ||
  c = '\u2028' || c = '\u2029' || c = '\u202f' || c = '\u205f' ||
  c = '\u3000' || c = '\ufeff'

/-- ECMAScript line terminators, the characters the regular-expression dot
does not match. -/
def isLineTerm (c : Char) : Bool :=
  c = '\n' || c = '\r' || c = '\u2028' || c = '\u2029'

/-- Remove trailing JS whitespace. -/
def dropTrailingWS (l : List Char) : List Char :=
  (l.reverse.dropWhile isJSWS).reverse

/-- Embedding of String.prototype.trim on character lists. -/
def trimChars (l : List Char) : List Char :=
  dropTrailingWS (l.dropWhile isJSWS)

/-- Embedding of String.prototype.trim. -/
def trimStr (s : String) : String := ⟨trimChars s.data⟩

/-- Exact value of parseInt(ds, 10) on a non-empty decimal digit string. -/
def digitsToNat (ds : List Char) : Nat :=
  ds.foldl (fun n c => n * 10 + (c.toNat - '0'.toNat)) 0

/-- Code-point lexicographic order (non-strict) on character lists. -/
def listLe : List Char → List Char → Bool
  | [], _ => true
  | _ :: _, [] => false
  | a :: as, b :: bs =>
    if a.toNat < b.toNat then true
    else if b.toNat < a.toNat then false
    else listLe as bs

/-- Code-point lexicographic order (strict) on character lists. -/
def listLt : List Char → List Char → Bool
  | [], [] => false
  | [], _ :: _ => true
  | _ :: _, [] => false
  | a :: as, b :: bs =>
    if a.toNat < b.toNat then true
    else if b.toNat < a.toNat then false
    else listLt as bs

/-- Character list of a string with every character lower-cased, the
embedding of String.prototype.toLowerCase for comparisons. -/
def lowerChars (s : String) : List Char := s.data.map Char.toLower

/-- Embedding of String.prototype.toLowerCase as a string. -/
def lowerStr (s : String) : String := ⟨lowerChars s⟩

/-- Embedding of s.startsWith(p). -/
def strStartsWith (s p : String) : Bool := p.data.isPrefixOf s.data

/-- Insert an element into a list before the first position whose element
does not satisfy le with it. -/
def insertLE {α : Type} (le : α → α → Bool) (a : α) : List α → List α
  | [] => [a]
  | b :: l => if le a b then a :: b :: l else b :: insertLE le a l

/-- Stable sort by a boolean comparator-induced relation, the embedding of
Array.prototype.sort(cmp) with le a b meaning cmp(a,b) <= 0: a stable
insertion sort, which on any comparator that is total and transitive
produces the same output as every other stable sort, in particular the
ECMAScript one. -/
def sortLE {α : Type} (le : α → α → Bool) : List α → List α
  | [] => []
  | b :: l => insertLE le b (sortLE le l)

/-- Embedding of localeCompare(b, undefined, sensitivity "base") <= 0:
case-insensitive lexicographic comparison. -/
def ciLe (a b : String) : Bool := listLe (lowerChars a) (lowerChars b)

/-- Strict form of the case-insensitive lexicographic comparison. -/
def ciLt (a b : String) : Bool := listLt (lowerChars a) (lowerChars b)

/-- Split a character list at its first right parenthesis, dropping it.
Returns none when no right parenthesis occurs.  This is where the
backslash-rparen of REGEX_PREFIXED_SKILL must match, since no earlier part
of the pattern can consume a right parenthesis. -/
def splitFirstRparen : List Char → Option (List Char × List Char)
  | [] => none
  | c :: t =>
    if c = ')' then some ([], t)
    else
      match splitFirstRparen t with
      | some (p, q) => some (c :: p, q)
      | none => none

/-- Match the sub-pattern  \s*([^)]+?)\s*(?:\^(\d+))?  of
REGEX_PREFIXED_SKILL against the full text P strictly between the opening
parenthesis and the first closing parenthesis.  ECMAScript backtracking
resolves the split deterministically: the leading \s* is greedy, the lazy
group takes the shortest non-empty text such that the rest of P is
whitespace optionally followed by a caret and digits running to the end of
P.  Concretely: with R the text after the maximal whitespace prefix
(backing off to keep R non-empty when P is all whitespace), if R ends with
a caret followed by one or more digits and stripping that suffix together
with the whitespace before the caret leaves a non-empty core, the capture
is that core and the weight group is those digits; otherwise the capture is
R without its trailing whitespace and the weight group is absent.  Returns
(captured class text, optional digit group). -/
def matchPrefixBody (p : List Char) : Option (List Char × Option (List Char)) :=
  match p.reverse with
  | [] => none
  | lastP :: _ =>
    match p.dropWhile isJSWS with
    | [] => some ([lastP], none)
    | r :: rs =>
      let rev := (r :: rs).reverse
      let rds := rev.takeWhile Char.isDigit
      let afterD := rev.dropWhile Char.isDigit
      if !rds.isEmpty && (afterD.head? == some '^') then
        let body := afterD.tail.dropWhile isJSWS
        if body.isEmpty then some (r :: rs, none)
        else some (body.reverse, some rds.reverse)
      else some (dropTrailingWS (r :: rs), none)

/-- Match the sub-pattern  \s*(.*)$  of REGEX_PREFIXED_SKILL against the
text after the closing parenthesis.  The dot does not cross line
terminators and the anchor is end-of-string, so a match exists exactly when
dropping the maximal whitespace prefix leaves a line-terminator-free
remainder; the capture is that remainder. -/
def matchTail (t : List Char) : Option (List Char) :=
  let b := t.dropWhile isJSWS
  if b.any isLineTerm then none else some b

/-- Result of parsePrefixedSkillName in utils.js. -/
structure ParsedSkill where
  className : String
  weight : Nat
  skillName : String
deriving DecidableEq, Repr

/-- Embedding of parsePrefixedSkillName (utils.js lines 12-21): match the
name against REGEX_PREFIXED_SKILL, i.e.
the pattern caret lparen \s* ([^)]+?) \s* (?:\^(\d+))? rparen \s* (.*) end,
and build the record with the class text trimmed, the weight group
converted by parseInt with default 0, and the remaining text trimmed. -/
def parsePrefixedSkillName (name : String) : Option ParsedSkill :=
  match name.data with
  | '(' :: afterParen =>
    match splitFirstRparen afterParen with
    | some (body, tail) =>
      match matchPrefixBody body, matchTail tail with
      | some (cls, w), some rest =>
        some { className := ⟨trimChars cls⟩,
               weight := match w with | some ds => digitsToNat ds | none => 0,
               skillName := ⟨trimChars rest⟩ }
      | _, _ => none
    | none => none
  | _ => none

/-- Consume a case-insensitive literal (given lower-cased) from the front
of a character list, returning the remainder. -/
def dropLiteralCI : List Char → List Char → Option (List Char)
  | [], l => some l
  | _ :: _, [] => none
  | a :: as, c :: cs => if c.toLower = a then dropLiteralCI as cs else none

/-- Match the sub-pattern  \s*(.+)$  of REGEX_NAMING_ITEM against the text
after the closing parenthesis.  As for matchTail, but the capture must be
non-empty: when the tail is all whitespace the greedy \s* backs off one
character, so the capture becomes the final whitespace character provided
it is not a line terminator. -/
def matchLabelTail (tail : List Char) : Option (List Char) :=
  match tail.dropWhile isJSWS with
  | [] =>
    match tail.reverse with
    | [] => none
    | c :: _ => if isLineTerm c then none else some [c]
  | b => if b.any isLineTerm then none else some b

/-- Embedding of parseNamingItem (utils.js lines 28-32): match the name
against REGEX_NAMING_ITEM, i.e. the case-insensitive pattern
caret lparen \s* customclass \s* rparen \s* (.+) end,
returning the captured label trimmed (possibly the empty string). -/
def parseNamingItem (name : String) : Option String :=
  match name.data with
  | '(' :: r =>
    match dropLiteralCI "customclass".data (r.dropWhile isJSWS) with
    | some afterTok =>
      match afterTok.dropWhile isJSWS with
      | ')' :: tail =>
        match matchLabelTail tail with
        | some lbl => some ⟨trimChars lbl⟩
        | none => none
      | _ => none
    | none => none
  | _ => none

/-- JavaScript truthiness of the parseNamingItem result (string or null):
null and the empty string are falsy.  groupActorSkills and the filter in
getCustomClassLabel / getCustomClassIcon test exactly this. -/
def namingTruthy (name : String) : Bool :=
  match parseNamingItem name with
  | some l => l != ""
  | none => false

/-- The three-way token classification of a skill name described by the
specification.  The source has no single parseName function; this is the
composite decision procedure the classification code implements: the
naming-item test of groupActorSkills line 48 runs first (with JavaScript
truthiness, so a naming match whose trimmed label is empty falls through),
then the prefixed-skill parse of line 50, then plain. -/
inductive ParsedToken where
  | naming (label : String)
  | prefixed (p : ParsedSkill)
  | plain
deriving DecidableEq, Repr

/-- Second and third stages of parseName. -/
def parsePrefixedToken (name : String) : ParsedToken :=
  match parsePrefixedSkillName name with
  | some p => ParsedToken.prefixed p
  | none => ParsedToken.plain

/-- Composite name parser in the order the classification code applies the
two patterns. -/
def parseName (name : String) : ParsedToken :=
  match parseNamingItem name with
  | some l => if l = "" then parsePrefixedToken name else ParsedToken.naming l
  | none => parsePrefixedToken name

/-- The fields of a Foundry Item the engine reads. -/
structure Item where
  id : String
  itemType : String
  name : String
  description : String
  updateTime : Nat
deriving DecidableEq, Repr

/-- A grouped skill entry: the item together with its parsed name, as
pushed by groupActorSkills line 63. -/
structure Entry where
  item : Item
  parsed : ParsedSkill
deriving DecidableEq, Repr

/-- Embedding of (item.type ?? "").toLowerCase() === "skill". -/
def isSkillType (i : Item) : Bool :=
  lowerStr i.itemType == "skill"

/-- The reserved marker token of init.js line 12. -/
def NAMING_TOKEN : String := "CUSTOMCLASS"

/-- Embedding of parsed.className.trim().toLowerCase() ===
NAMING_TOKEN.toLowerCase(), the guard of groupActorSkills line 59. -/
def isReservedClassName (s : String) : Bool :=
  lowerStr ⟨trimChars s.data⟩ == lowerStr NAMING_TOKEN

/-- Append an entry to the group with the given key, creating the group at
the end on first encounter; this is the JavaScript object insertion
grouped[className].push of groupActorSkills lines 62-63, with the group
list kept in key insertion order. -/
def groupInsert (groups : List (String × List Entry)) (key : String) (e : Entry) :
    List (String × List Entry) :=
  match groups with
  | [] => [(key, [e])]
  | (k, es) :: t => if k = key then (k, es ++ [e]) :: t else (k, es) :: groupInsert t key e

/-- One iteration of the loop of groupActorSkills lines 43-64. -/
def classifyStep (acc : List (String × List Entry) × List Item) (item : Item) :
    List (String × List Entry) × List Item :=
  if !isSkillType item then acc
  else if namingTruthy item.name then acc
  else
    match parsePrefixedSkillName item.name with
    | none => (acc.1, acc.2 ++ [item])
    | some parsed =>
      if isReservedClassName parsed.className then acc
      else (groupInsert acc.1 parsed.className ⟨item, parsed⟩, acc.2)

/-- The grouping loop of groupActorSkills before the sorting passes. -/
def classifyRaw (items : List Item) : List (String × List Entry) × List Item :=
  items.foldl classifyStep ([], [])

/-- Embedding of the within-group comparator of groupActorSkills lines
68-71 as a non-strict relation (comparator result <= 0): higher weight
first, ties by case-insensitive comparison of the parsed skill names. -/
def entryLE (a b : Entry) : Bool :=
  if a.parsed.weight = b.parsed.weight then ciLe a.parsed.skillName b.parsed.skillName
  else decide (b.parsed.weight < a.parsed.weight)

/-- Embedding of the occupational comparator of groupActorSkills line 75:
case-insensitive comparison of the full item names. -/
def occLE (a b : Item) : Bool := ciLe a.name b.name

/-- Embedding of groupActorSkills (utils.js lines 39-78): the grouping loop
followed by the stable sort of every group and of the occupational list.
Returns (grouped, occupational). -/
def groupActorSkills (items : List Item) : List (String × List Entry) × List Item :=
  let r := classifyRaw items
  (r.1.map (fun g => (g.1, sortLE entryLE g.2)), sortLE occLE r.2)

/-- The filter shared by getCustomClassLabel line 88 and getCustomClassIcon
line 130: skill items whose name is a truthy naming match. -/
def namingSkillsOf (items : List Item) : List Item :=
  items.filter (fun i => isSkillType i && namingTruthy i.name)

/-- Embedding of the ascending updateTime comparator of getCustomClassLabel
line 93 and getCustomClassIcon line 137. -/
def updateLE (a b : Item) : Bool := decide (a.updateTime ≤ b.updateTime)

/-- Embedding of getCustomClassLabel (utils.js lines 86-97): filter the
naming skills, stable-sort ascending by updateTime, take the last, and
return its parsed label; none when there is no naming skill (the source
returns null early exactly when the filtered list is empty, which is when
the sorted list has no last element). -/
def getCustomClassLabel (items : List Item) : Option String :=
  match (sortLE updateLE (namingSkillsOf items)).getLast? with
  | none => none
  | some last => parseNamingItem last.name

/-- Character class [a-z0-9\-] under the case-insensitive flag of the icon
pattern in parseCustomClassIcon. -/
def isTokenChar (c : Char) : Bool := c.isAlpha || c.isDigit || c = '-'

/-- Try to match the icon pattern  <p>\s*icon:\s*([a-z0-9\-]+)\s*</p>
(case-insensitive) at the head of the character list, returning the
captured token.  Every character class in the pattern is disjoint from its
neighbours, so the ECMAScript match at one position is deterministic. -/
def matchIconAt (l : List Char) : Option (List Char) :=
  match dropLiteralCI "<p>".data l with
  | none => none
  | some r1 =>
    match dropLiteralCI "icon:".data (r1.dropWhile isJSWS) with
    | none => none
    | some r3 =>
      let r4 := r3.dropWhile isJSWS
      match r4.takeWhile isTokenChar with
      | [] => none
      | tok =>
        match dropLiteralCI "</p>".data ((r4.dropWhile isTokenChar).dropWhile isJSWS) with
        | some _ => some tok
        | none => none

/-- Leftmost search of the icon pattern, as an unanchored ECMAScript match:
try every start position left to right. -/
def searchIcon : List Char → Option (List Char)
  | [] => none
  | c :: t =>
    match matchIconAt (c :: t) with
    | some tok => some tok
    | none => searchIcon t

/-- Validation pattern  ^fa-[a-z0-9\-]+$  (case-insensitive) of
parseCustomClassIcon line 115. -/
def isValidIcon (tok : List Char) : Bool :=
  match tok with
  | f :: a :: d :: rest =>
    f.toLower = 'f' && a.toLower = 'a' && d = '-' && !rest.isEmpty && rest.all isTokenChar
  | _ => false

/-- Embedding of parseCustomClassIcon (utils.js lines 105-118): guard
against the falsy empty description, search the description for the icon
directive, trim the captured token, and validate its shape. -/
def parseCustomClassIcon (html : String) : Option String :=
  if html = "" then none
  else
    match searchIcon html.data with
    | none => none
    | some tokRaw =>
      let tok := trimChars tokRaw
      if isValidIcon tok then some ⟨tok⟩ else none

/-- The default icon constant of getCustomClassIcon line 127. -/
def DEFAULT_ICON : String := "fa-solid fa-circle-exclamation"

/-- Embedding of getCustomClassIcon (utils.js lines 126-151): resolve the
most recently updated naming skill exactly as getCustomClassLabel does,
extract the icon directive from its description, and prepend the default
style family when the token starts with fa- but with none of the three
recognized family markers (the startsWith tests are case-sensitive). -/
def getCustomClassIcon (items : List Item) : String :=
  match (sortLE updateLE (namingSkillsOf items)).getLast? with
  | none => DEFAULT_ICON
  | some ns =>
    match parseCustomClassIcon ns.description with
    | none => DEFAULT_ICON
    | some ic =>
      if strStartsWith ic "fa-" && !strStartsWith ic "fa-solid" &&
         !strStartsWith ic "fa-regular" && !strStartsWith ic "fa-brands"
      then "fa-solid " ++ ic
      else ic

/-- Embedding of a.toLowerCase() === b.toLowerCase(). -/
def ciEq (a b : String) : Bool := lowerChars a == lowerChars b

/-- Embedding of the group-name comparator of DCCActorSheetCustom
_prepareContext (sheet subclass, lines 199-212) as a non-strict relation:
when the class label is truthy (non-empty), a key that case-insensitively
equals it sorts before one that does not; otherwise case-insensitive
comparison. -/
def groupNameLE (classLabel : String) (a b : String) : Bool :=
  if classLabel = "" then ciLe a b
  else if ciEq a classLabel && !ciEq b classLabel then true
  else if !ciEq a classLabel && ciEq b classLabel then false
  else ciLe a b

/-- The group-name ordering pass of _prepareContext: sort the group keys
with the comparator above. -/
def orderGroupNames (names : List String) (classLabel : String) : List String :=
  sortLE (groupNameLE classLabel) names

/-- Whether a character list ends with a caret followed by one or more
digits.  On the text between the parentheses this is exactly the condition
under which the optional weight group of REGEX_PREFIXED_SKILL can
participate in a match. -/
def endsCaretDigits (l : List Char) : Bool :=
  !(l.reverse.takeWhile Char.isDigit).isEmpty &&
    ((l.reverse.dropWhile Char.isDigit).head? == some '^')

/-- The predicate selecting the records groupActorSkills routes to the
occupational list: skill items whose name is not a truthy naming match and
does not match the prefixed-skill pattern. -/
def occPred (i : Item) : Bool :=
  isSkillType i && !namingTruthy i.name && (parsePrefixedSkillName i.name).isNone

/-- Invariant of every entry stored in a class group: its parsed record is
the parse of its own item name and its class name is not the reserved
marker. -/
def entryOK (e : Entry) : Prop :=
  parsePrefixedSkillName e.item.name = some e.parsed ∧
    isReservedClassName e.parsed.className = false ∧
    isSkillType e.item = true ∧ namingTruthy e.item.name = false

theorem dropWhile_dropWhile_self (p : Char → Bool) (l : List Char) :
    (l.dropWhile p).dropWhile p = l.dropWhile p := by
  cases h : l.dropWhile p with
  | nil => simp
  | cons c t =>
    have hc := List.head?_dropWhile_not p l
    rw [h] at hc
    simp only [List.head?_cons] at hc
    simp [List.dropWhile_cons, hc]

theorem dropTrailingWS_isPrefix (l : List Char) : dropTrailingWS l <+: l := by
  have h := List.dropWhile_suffix (l := l.reverse) isJSWS
  have h2 : (dropTrailingWS l).reverse <:+ l.reverse := by
    unfold dropTrailingWS
    rw [List.reverse_reverse]
    exact h
  exact List.reverse_suffix.mp h2

theorem dropWhile_ws_of_dropTrailing (l : List Char) :
    (dropTrailingWS (l.dropWhile isJSWS)).dropWhile isJSWS
      = dropTrailingWS (l.dropWhile isJSWS) := by
  cases hm : dropTrailingWS (l.dropWhile isJSWS) with
  | nil => simp
  | cons c t =>
    have hpre := dropTrailingWS_isPrefix (l.dropWhile isJSWS)
    rw [hm] at hpre
    obtain ⟨s, hs⟩ := hpre
    have hc := List.head?_dropWhile_not isJSWS l
    rw [← hs] at hc
    simp only [List.cons_append, List.head?_cons] at hc
    simp [List.dropWhile_cons, hc]

theorem trimChars_idem (l : List Char) : trimChars (trimChars l) = trimChars l := by
  unfold trimChars
  rw [dropWhile_ws_of_dropTrailing]
  unfold dropTrailingWS
  rw [List.reverse_reverse, dropWhile_dropWhile_self]

theorem trimChars_dropWhile (l : List Char) :
    trimChars (l.dropWhile isJSWS) = trimChars l := by
  unfold trimChars
  rw [dropWhile_dropWhile_self]

theorem splitFirstRparen_append (a b : List Char) (h : ')' ∉ a) :
    splitFirstRparen (a ++ ')' :: b) = some (a, b) := by
  induction a with
  | nil => simp [splitFirstRparen]
  | cons c t ih =>
    have hc : c ≠ ')' := fun hc => h (hc ▸ List.mem_cons_self c t)
    have ht : ')' ∉ t := fun hm => h (List.mem_cons_of_mem c hm)
    simp only [List.cons_append, splitFirstRparen, if_neg hc, List.append_eq, ih ht]

theorem listLe_total (a b : List Char) : listLe a b = true ∨ listLe b a = true := by
  induction a generalizing b with
  | nil => left; rfl
  | cons x xs ih =>
    cases b with
    | nil => right; rfl
    | cons y ys =>
      by_cases h1 : x.toNat < y.toNat
      · left; simp [listLe, h1]
      · by_cases h2 : y.toNat < x.toNat
        · right; simp [listLe, h2]
        · rcases ih ys with h | h
          · left; simp [listLe, h1, h2, h]
          · right; simp [listLe, h1, h2, h]

theorem listLe_trans (a b c : List Char) (hab : listLe a b = true)
    (hbc : listLe b c = true) : listLe a c = true := by
  induction a generalizing b c with
  | nil => rfl
  | cons x xs ih =>
    cases b with
    | nil => simp [listLe] at hab
    | cons y ys =>
      cases c with
      | nil => simp [listLe] at hbc
      | cons z zs =>
        simp only [listLe] at hab hbc ⊢
        split_ifs at hab hbc ⊢ with h1 h2 h3 h4 h5 h6 <;>
          first
          | rfl
          | omega
          | (exact ih ys zs hab hbc)
          | (exact absurd hab (by simp))
          | (exact absurd hbc (by simp))

theorem isEmpty_false_of_ne_nil {α : Type} {l : List α} (h : l ≠ []) :
    l.isEmpty = false := by
  cases l with
  | nil => exact absurd rfl h
  | cons a t => rfl

theorem trimChars_of_all_ws (l : List Char) (h : ∀ c ∈ l, isJSWS c = true) :
    trimChars l = [] := by
  unfold trimChars
  rw [List.dropWhile_eq_nil_iff.mpr h]
  rfl

theorem takeWhile_of_all (p : Char → Bool) (xs : List Char)
    (h : ∀ c ∈ xs, p c = true) : xs.takeWhile p = xs := by
  induction xs with
  | nil => rfl
  | cons c t ih =>
    have hc : p c = true := h c (List.mem_cons_self c t)
    simp only [List.takeWhile_cons, hc, if_true]
    rw [ih fun x hx => h x (List.mem_cons_of_mem c hx)]

theorem takeWhile_append_of_all (p : Char → Bool) (xs ys : List Char)
    (h : ∀ c ∈ xs, p c = true) :
    (xs ++ ys).takeWhile p = xs ++ ys.takeWhile p := by
  rw [List.takeWhile_append, takeWhile_of_all p xs h, if_pos rfl]

theorem dropWhile_append_of_all (p : Char → Bool) (xs ys : List Char)
    (h : ∀ c ∈ xs, p c = true) :
    (xs ++ ys).dropWhile p = ys.dropWhile p := by
  rw [List.dropWhile_append, if_pos]
  rw [List.isEmpty_iff, List.dropWhile_eq_nil_iff]
  exact h

theorem dropWhile_append_of_ne_nil (p : Char → Bool) (xs ys : List Char)
    (h : xs.dropWhile p ≠ []) :
    (xs ++ ys).dropWhile p = xs.dropWhile p ++ ys := by
  rw [List.dropWhile_append, if_neg]
  rw [List.isEmpty_iff]
  exact h

theorem takeWhile_append_of_ne_nil (p : Char → Bool) (xs ys : List Char)
    (h : xs.dropWhile p ≠ []) :
    (xs ++ ys).takeWhile p = xs.takeWhile p := by
  rw [List.takeWhile_append, if_neg]
  intro hlen
  apply h
  have hsum := congrArg List.length (List.takeWhile_append_dropWhile p xs)
  simp only [List.length_append] at hsum
  have : (xs.dropWhile p).length = 0 := by omega
  exact List.eq_nil_of_length_eq_zero this

theorem endsCaretDigits_extend (w r : List Char) (h : endsCaretDigits r = true) :
    endsCaretDigits (w ++ r) = true := by
  unfold endsCaretDigits at h ⊢
  rw [Bool.and_eq_true] at h
  obtain ⟨h1, h2⟩ := h
  cases hd : r.reverse.dropWhile Char.isDigit with
  | nil => rw [hd] at h2; simp at h2
  | cons a t =>
    rw [hd] at h2
    simp only [List.head?_cons, beq_iff_eq, Option.some.injEq] at h2
    subst h2
    have hne : r.reverse.dropWhile Char.isDigit ≠ [] := by rw [hd]; simp
    rw [List.reverse_append]
    rw [takeWhile_append_of_ne_nil Char.isDigit r.reverse w.reverse hne,
        dropWhile_append_of_ne_nil Char.isDigit r.reverse w.reverse hne, hd]
    simp only [List.cons_append, List.head?_cons, beq_self_eq_true, Bool.and_true]
    exact h1

theorem matchPrefixBody_noWeight (cls : List Char) (hne : cls ≠ [])
    (hnc : endsCaretDigits cls = false) :
    ∃ c, matchPrefixBody cls = some (c, none) ∧ trimChars c = trimChars cls := by
  cases hrev : cls.reverse with
  | nil => exact absurd (List.reverse_eq_nil_iff.mp hrev) hne
  | cons lastP restRev =>
    cases hR : cls.dropWhile isJSWS with
    | nil =>
      refine ⟨[lastP], ?_, ?_⟩
      · simp only [matchPrefixBody, hrev, hR]
      · have hall : ∀ c ∈ cls, isJSWS c = true := List.dropWhile_eq_nil_iff.mp hR
        have hmem : lastP ∈ cls := by
          rw [← List.mem_reverse, hrev]
          exact List.mem_cons_self _ _
        rw [trimChars_of_all_ws cls hall, trimChars_of_all_ws [lastP]]
        intro c hc
        rw [List.mem_singleton] at hc
        exact hc ▸ hall lastP hmem
    | cons r rs =>
      have hcond : endsCaretDigits (r :: rs) = false := by
        cases hb : endsCaretDigits (r :: rs) with
        | false => rfl
        | true =>
          have hext := endsCaretDigits_extend (cls.takeWhile isJSWS) (r :: rs) hb
          rw [← hR, List.takeWhile_append_dropWhile, hnc] at hext
          exact absurd hext (by simp)
      refine ⟨dropTrailingWS (r :: rs), ?_, ?_⟩
      · unfold endsCaretDigits at hcond
        simp only [matchPrefixBody, hrev, hR, hcond, Bool.false_eq_true, if_false]
      · have : dropTrailingWS (r :: rs) = trimChars cls := by
          unfold trimChars
          rw [hR]
        rw [this, trimChars_idem]

theorem matchPrefixBody_weight (cls ds : List Char)
    (hnw : ∃ c ∈ cls, isJSWS c = false) (hds : ds ≠ [])
    (hdig : ∀ c ∈ ds, c.isDigit = true) :
    matchPrefixBody (cls ++ '^' :: ds) = some (trimChars cls, some ds) := by
  have hclsne : cls.dropWhile isJSWS ≠ [] := by
    intro hnil
    obtain ⟨c, hc, hcw⟩ := hnw
    have := List.dropWhile_eq_nil_iff.mp hnil c hc
    rw [this] at hcw
    exact absurd hcw (by simp)
  have hPne : (cls ++ '^' :: ds) ≠ [] := by simp
  cases hrev : (cls ++ '^' :: ds).reverse with
  | nil => exact absurd (List.reverse_eq_nil_iff.mp hrev) hPne
  | cons lastP restRev =>
    have hR : (cls ++ '^' :: ds).dropWhile isJSWS
        = cls.dropWhile isJSWS ++ '^' :: ds :=
      dropWhile_append_of_ne_nil isJSWS cls ('^' :: ds) hclsne
    cases hcls' : cls.dropWhile isJSWS with
    | nil => exact absurd hcls' hclsne
    | cons c0 cs =>
      rw [hcls'] at hR
      have hrevR : ((c0 :: cs) ++ '^' :: ds).reverse
          = ds.reverse ++ '^' :: (c0 :: cs).reverse := by
        rw [List.reverse_append, List.reverse_cons]
        simp
      have hcaret : '^'.isDigit = false := by decide
      have hrds : (ds.reverse ++ '^' :: (c0 :: cs).reverse).takeWhile Char.isDigit
          = ds.reverse := by
        rw [takeWhile_append_of_all Char.isDigit ds.reverse _
          (fun c hc => hdig c (List.mem_reverse.mp hc))]
        simp [List.takeWhile_cons, hcaret]
      have hafter : (ds.reverse ++ '^' :: (c0 :: cs).reverse).dropWhile Char.isDigit
          = '^' :: (c0 :: cs).reverse := by
        rw [dropWhile_append_of_all Char.isDigit ds.reverse _
          (fun c hc => hdig c (List.mem_reverse.mp hc))]
        simp [List.dropWhile_cons, hcaret]
      have hbody : (c0 :: cs).reverse.dropWhile isJSWS ≠ [] := by
        intro hnil
        have hall := List.dropWhile_eq_nil_iff.mp hnil
        have hc0 : isJSWS c0 = false := by
          have hh := List.head?_dropWhile_not isJSWS cls
          rw [hcls'] at hh
          simpa using hh
        have : isJSWS c0 = true := hall c0 (by simp)
        rw [hc0] at this
        exact absurd this (by simp)
      have hds' : ds.reverse ≠ [] := by
        rw [Ne, List.reverse_eq_nil_iff]
        exact hds
      have hrevR' : (c0 :: (cs ++ '^' :: ds)).reverse
          = ds.reverse ++ '^' :: (c0 :: cs).reverse := by
        rw [← List.cons_append]
        exact hrevR
      have hgoal : trimChars cls = ((c0 :: cs).reverse.dropWhile isJSWS).reverse := by
        unfold trimChars dropTrailingWS
        rw [hcls']
      simp only [matchPrefixBody, hrev, hR, List.cons_append, hrevR', hrds, hafter,
        isEmpty_false_of_ne_nil hds', isEmpty_false_of_ne_nil hbody,
        List.head?_cons, List.tail_cons, beq_self_eq_true, Bool.not_false,
        Bool.and_self, if_true, Bool.true_and, List.reverse_reverse,
        Option.some.injEq, Prod.mk.injEq]
      simp [hgoal]

end DCCSheet

namespace DCCSheet

theorem listLt_listLe (a b : List Char) (h : listLt a b = true) :
    listLe b a = false := by
  induction a generalizing b with
  | nil =>
    cases b with
    | nil => simp [listLt] at h
    | cons y ys => rfl
  | cons x xs ih =>
    cases b with
    | nil => simp [listLt] at h
    | cons y ys =>
      simp only [listLt] at h
      simp only [listLe]
      split_ifs at h ⊢ with h1 h2 h3 h4 <;>
        first
        | rfl
        | omega
        | (exact ih ys h)
        | (exact absurd h (by simp))

theorem ciLe_trans (a b c : String) (h1 : ciLe a b = true) (h2 : ciLe b c = true) :
    ciLe a c = true :=
  listLe_trans _ _ _ h1 h2

theorem ciLe_total (a b : String) : ciLe a b = true ∨ ciLe b a = true :=
  listLe_total _ _

theorem matchTail_of_noLT (t : List Char) (h : ∀ c ∈ t, isLineTerm c = false) :
    matchTail t = some (t.dropWhile isJSWS) := by
  unfold matchTail
  have hany : (t.dropWhile isJSWS).any isLineTerm = false := by
    rw [List.any_eq_false]
    intro c hc
    have hct : c ∈ t := (List.dropWhile_sublist isJSWS).mem hc
    simp [h c hct]
  simp [hany]

theorem parsePrefixed_noWeight (cls rest : List Char) (hne : cls ≠ [])
    (hnp : ')' ∉ cls) (hnc : endsCaretDigits cls = false)
    (hrest : ∀ c ∈ rest, isLineTerm c = false) :
    parsePrefixedSkillName ⟨'(' :: (cls ++ ')' :: rest)⟩
      = some ⟨⟨trimChars cls⟩, 0, ⟨trimChars rest⟩⟩ := by
  obtain ⟨c, hmb, htc⟩ := matchPrefixBody_noWeight cls hne hnc
  simp only [parsePrefixedSkillName, splitFirstRparen_append cls rest hnp, hmb,
    matchTail_of_noLT rest hrest]
  rw [show trimChars (rest.dropWhile isJSWS) = trimChars rest from trimChars_dropWhile rest,
    htc]

theorem parsePrefixed_withWeight (cls ds rest : List Char)
    (hnw : ∃ c ∈ cls, isJSWS c = false) (hnp : ')' ∉ cls) (hds : ds ≠ [])
    (hdig : ∀ c ∈ ds, c.isDigit = true)
    (hrest : ∀ c ∈ rest, isLineTerm c = false) :
    parsePrefixedSkillName ⟨'(' :: ((cls ++ '^' :: ds) ++ ')' :: rest)⟩
      = some ⟨⟨trimChars cls⟩, digitsToNat ds, ⟨trimChars rest⟩⟩ := by
  have hnp2 : ')' ∉ cls ++ '^' :: ds := by
    intro hm
    rcases List.mem_append.mp hm with hm | hm
    · exact hnp hm
    · rcases List.mem_cons.mp hm with hm | hm
      · exact absurd hm (by decide)
      · exact absurd (hdig _ hm) (by decide)
  simp only [parsePrefixedSkillName, splitFirstRparen_append _ rest hnp2,
    matchPrefixBody_weight cls ds hnw hds hdig, matchTail_of_noLT rest hrest]
  rw [show trimChars (rest.dropWhile isJSWS) = trimChars rest from trimChars_dropWhile rest,
    trimChars_idem]

theorem entryLE_trans (a b c : Entry) (hab : entryLE a b = true)
    (hbc : entryLE b c = true) : entryLE a c = true := by
  unfold entryLE ciLe at hab hbc ⊢
  by_cases h1 : a.parsed.weight = b.parsed.weight
  · by_cases h2 : b.parsed.weight = c.parsed.weight
    · rw [if_pos h1] at hab
      rw [if_pos h2] at hbc
      rw [if_pos (h1.trans h2)]
      exact listLe_trans _ _ _ hab hbc
    · rw [if_neg h2, decide_eq_true_eq] at hbc
      have h3 : ¬ a.parsed.weight = c.parsed.weight := by omega
      rw [if_neg h3, decide_eq_true_eq]
      omega
  · rw [if_neg h1, decide_eq_true_eq] at hab
    by_cases h2 : b.parsed.weight = c.parsed.weight
    · have h3 : ¬ a.parsed.weight = c.parsed.weight := by omega
      rw [if_neg h3, decide_eq_true_eq]
      omega
    · rw [if_neg h2, decide_eq_true_eq] at hbc
      have h3 : ¬ a.parsed.weight = c.parsed.weight := by omega
      rw [if_neg h3, decide_eq_true_eq]
      omega

theorem entryLE_total (a b : Entry) : (entryLE a b || entryLE b a) = true := by
  unfold entryLE ciLe
  by_cases h : a.parsed.weight = b.parsed.weight
  · rw [if_pos h, if_pos h.symm]
    rcases listLe_total (lowerChars a.parsed.skillName) (lowerChars b.parsed.skillName)
      with hl | hl <;> simp [hl]
  · rw [if_neg h, if_neg (fun hh => h hh.symm)]
    simp only [Bool.or_eq_true, decide_eq_true_eq]
    omega

theorem occLE_trans (a b c : Item) (hab : occLE a b = true)
    (hbc : occLE b c = true) : occLE a c = true :=
  listLe_trans _ _ _ hab hbc

theorem occLE_total (a b : Item) : (occLE a b || occLE b a) = true := by
  unfold occLE ciLe
  rcases listLe_total (lowerChars a.name) (lowerChars b.name) with hl | hl <;> simp [hl]

theorem updateLE_trans (a b c : Item) (hab : updateLE a b = true)
    (hbc : updateLE b c = true) : updateLE a c = true := by
  unfold updateLE at hab hbc ⊢
  rw [decide_eq_true_eq] at hab hbc ⊢
  omega

theorem updateLE_total (a b : Item) : (updateLE a b || updateLE b a) = true := by
  unfold updateLE
  simp only [Bool.or_eq_true, decide_eq_true_eq]
  omega

theorem groupNameLE_trans (lbl a b c : String) (hab : groupNameLE lbl a b = true)
    (hbc : groupNameLE lbl b c = true) : groupNameLE lbl a c = true := by
  unfold groupNameLE at hab hbc ⊢
  by_cases hl : lbl = ""
  · rw [if_pos hl] at hab hbc ⊢
    exact ciLe_trans _ _ _ hab hbc
  · rw [if_neg hl] at hab hbc ⊢
    cases haM : ciEq a lbl <;> cases hbM : ciEq b lbl <;> cases hcM : ciEq c lbl <;>
      simp only [haM, hbM, hcM, Bool.not_true, Bool.not_false, Bool.and_true,
        Bool.and_false, Bool.true_and, Bool.false_and, Bool.and_self,
        if_true, if_false, Bool.false_eq_true, Bool.true_eq_false] at hab hbc ⊢ <;>
      first
        | rfl
        | exact ciLe_trans _ _ _ hab hbc

theorem mem_insertLE {α : Type} (le : α → α → Bool) (a x : α) :
    ∀ l : List α, x ∈ insertLE le a l ↔ x = a ∨ x ∈ l := by
  intro l
  induction l with
  | nil => simp [insertLE]
  | cons b t ih =>
    unfold insertLE
    by_cases h : le a b = true
    · rw [if_pos h]
      simp [List.mem_cons]
    · rw [if_neg h]
      simp only [List.mem_cons, ih]
      tauto

theorem mem_sortLE {α : Type} (le : α → α → Bool) (x : α) :
    ∀ l : List α, x ∈ sortLE le l ↔ x ∈ l := by
  intro l
  induction l with
  | nil => simp [sortLE]
  | cons b t ih => simp [sortLE, mem_insertLE, ih]

theorem perm_insertLE {α : Type} (le : α → α → Bool) (a : α) :
    ∀ l : List α, (insertLE le a l).Perm (a :: l) := by
  intro l
  induction l with
  | nil => exact List.Perm.refl _
  | cons b t ih =>
    unfold insertLE
    by_cases h : le a b = true
    · rw [if_pos h]
    · rw [if_neg h]
      exact (ih.cons b).trans (List.Perm.swap a b t)

theorem perm_sortLE {α : Type} (le : α → α → Bool) :
    ∀ l : List α, (sortLE le l).Perm l := by
  intro l
  induction l with
  | nil => exact List.Perm.refl _
  | cons b t ih => exact (perm_insertLE le b (sortLE le t)).trans (ih.cons b)

theorem pairwise_insertLE {α : Type} (le : α → α → Bool)
    (htrans : ∀ a b c, le a b = true → le b c = true → le a c = true)
    (htotal : ∀ a b, (le a b || le b a) = true) (a : α) :
    ∀ l : List α, l.Pairwise (fun x y => le x y = true) →
      (insertLE le a l).Pairwise (fun x y => le x y = true) := by
  intro l
  induction l with
  | nil =>
    intro _
    simp [insertLE]
  | cons b t ih =>
    intro hp
    obtain ⟨hb, ht⟩ := List.pairwise_cons.mp hp
    unfold insertLE
    by_cases h : le a b = true
    · rw [if_pos h]
      refine List.pairwise_cons.mpr ⟨?_, hp⟩
      intro x hx
      rcases List.mem_cons.mp hx with rfl | hx
      · exact h
      · exact htrans a b x h (hb x hx)
    · rw [if_neg h]
      refine List.pairwise_cons.mpr ⟨?_, ih ht⟩
      intro x hx
      rcases (mem_insertLE le a x t).mp hx with heq | hx
      · rw [heq]
        have htot := htotal a b
        rw [Bool.or_eq_true] at htot
        rcases htot with h' | h'
        · exact absurd h' h
        · exact h'
      · exact hb x hx

theorem pairwise_sortLE {α : Type} (le : α → α → Bool)
    (htrans : ∀ a b c, le a b = true → le b c = true → le a c = true)
    (htotal : ∀ a b, (le a b || le b a) = true) :
    ∀ l : List α, (sortLE le l).Pairwise (fun x y => le x y = true) := by
  intro l
  induction l with
  | nil => exact List.Pairwise.nil
  | cons b t ih => exact pairwise_insertLE le htrans htotal b _ ih

theorem classifyStep_snd (acc : List (String × List Entry) × List Item) (i : Item) :
    (classifyStep acc i).2 = if occPred i then acc.2 ++ [i] else acc.2 := by
  unfold classifyStep occPred
  cases hs : isSkillType i
  · simp [hs]
  · cases hn : namingTruthy i.name
    · cases hp : parsePrefixedSkillName i.name
      · simp [hs, hn, hp]
      · simp only [hs, hn, hp, Bool.not_true, Bool.not_false, Bool.true_and,
          Bool.and_false, Option.isNone_some, if_false, Bool.false_eq_true]
        split <;> rfl
    · simp [hs, hn]

theorem foldl_classify_snd : ∀ (items : List Item)
    (acc : List (String × List Entry) × List Item),
    (items.foldl classifyStep acc).2 = acc.2 ++ items.filter occPred := by
  intro items
  induction items with
  | nil => intro acc; simp
  | cons i t ih =>
    intro acc
    rw [List.foldl_cons, ih, List.filter_cons, classifyStep_snd]
    by_cases hp : occPred i <;> simp [hp]

theorem groupInsert_mem : ∀ (groups : List (String × List Entry)) (key : String)
    (e : Entry) (k : String) (es : List Entry), (k, es) ∈ groupInsert groups key e →
    ∀ x ∈ es, (∃ es₀, (k, es₀) ∈ groups ∧ x ∈ es₀) ∨ x = e := by
  intro groups
  induction groups with
  | nil =>
    intro key e k es h x hx
    simp only [groupInsert, List.mem_singleton, Prod.mk.injEq] at h
    obtain ⟨rfl, rfl⟩ := h
    right
    simpa using hx
  | cons g t ih =>
    intro key e k es h x hx
    obtain ⟨gk, ges⟩ := g
    simp only [groupInsert] at h
    by_cases hkey : gk = key
    · rw [if_pos hkey] at h
      rcases List.mem_cons.mp h with h | h
      · rw [Prod.mk.injEq] at h
        obtain ⟨rfl, rfl⟩ := h
        rcases List.mem_append.mp hx with hx | hx
        · left; exact ⟨ges, List.mem_cons_self _ _, hx⟩
        · right; simpa using hx
      · left; exact ⟨es, List.mem_cons_of_mem _ h, hx⟩
    · rw [if_neg hkey] at h
      rcases List.mem_cons.mp h with h | h
      · rw [Prod.mk.injEq] at h
        obtain ⟨rfl, rfl⟩ := h
        left; exact ⟨es, List.mem_cons_self _ _, hx⟩
      · rcases ih key e k es h x hx with ⟨es₀, hmem, hx₀⟩ | he
        · left; exact ⟨es₀, List.mem_cons_of_mem _ hmem, hx₀⟩
        · right; exact he

theorem foldl_classify_groups : ∀ (items : List Item)
    (acc : List (String × List Entry) × List Item),
    (∀ k es, (k, es) ∈ acc.1 → ∀ x ∈ es, entryOK x) →
    ∀ k es, (k, es) ∈ (items.foldl classifyStep acc).1 → ∀ x ∈ es, entryOK x := by
  intro items
  induction items with
  | nil => intro acc hacc; simpa using hacc
  | cons i t ih =>
    intro acc hacc
    rw [List.foldl_cons]
    apply ih
    intro k es hkes x hx
    unfold classifyStep at hkes
    split at hkes
    · exact hacc k es hkes x hx
    next hskill =>
      split at hkes
      · exact hacc k es hkes x hx
      next hnaming =>
        split at hkes
        · exact hacc k es hkes x hx
        next p hparse =>
          split at hkes
          · exact hacc k es hkes x hx
          next hres =>
            rcases groupInsert_mem acc.1 p.className ⟨i, p⟩ k es hkes x hx with
              ⟨es₀, hmem, hx₀⟩ | rfl
            · exact hacc k es₀ hmem x hx₀
            · exact ⟨hparse, by simpa using hres, by simpa using hskill,
                by simpa using hnaming⟩

theorem groupActorSkills_occ (items : List Item) :
    (groupActorSkills items).2 = sortLE occLE (items.filter occPred) := by
  show sortLE occLE (classifyRaw items).2 = _
  unfold classifyRaw
  rw [foldl_classify_snd items ([], [])]
  rfl

theorem groupActorSkills_groups_entryOK (items : List Item) (k : String)
    (es : List Entry) (hk : (k, es) ∈ (groupActorSkills items).1) :
    ∀ x ∈ es, entryOK x := by
  intro x hx
  unfold groupActorSkills at hk
  simp only [List.mem_map] at hk
  obtain ⟨⟨k₀, es₀⟩, hmem, heq⟩ := hk
  rw [Prod.mk.injEq] at heq
  obtain ⟨rfl, rfl⟩ := heq
  have hx₀ : x ∈ es₀ := (mem_sortLE entryLE x es₀).mp hx
  exact foldl_classify_groups items ([], []) (by intro k es h; simp at h)
    k₀ es₀ hmem x hx₀

theorem groupActorSkills_groups_sorted (items : List Item) (k : String)
    (es : List Entry) (hk : (k, es) ∈ (groupActorSkills items).1) :
    es.Pairwise (fun a b => entryLE a b = true) := by
  unfold groupActorSkills at hk
  simp only [List.mem_map] at hk
  obtain ⟨⟨k₀, es₀⟩, hmem, heq⟩ := hk
  rw [Prod.mk.injEq] at heq
  obtain ⟨rfl, rfl⟩ := heq
  exact pairwise_sortLE entryLE (fun a b c => entryLE_trans a b c)
    (fun a b => entryLE_total a b) es₀

theorem mem_occ_of_occPred (items : List Item) (i : Item) (hi : i ∈ items)
    (hp : occPred i = true) : i ∈ (groupActorSkills items).2 := by
  rw [groupActorSkills_occ, mem_sortLE]
  exact List.mem_filter.mpr ⟨hi, hp⟩

theorem occPred_of_mem_occ (items : List Item) (i : Item)
    (hi : i ∈ (groupActorSkills items).2) : occPred i = true := by
  rw [groupActorSkills_occ, mem_sortLE] at hi
  exact (List.mem_filter.mp hi).2

theorem getLast?_rel {α : Type} {R : α → α → Prop} (hrefl : ∀ a, R a a) :
    ∀ (l : List α), l.Pairwise R → ∀ last, l.getLast? = some last →
      last ∈ l ∧ ∀ x ∈ l, R x last := by
  intro l
  induction l with
  | nil => intro _ last h; simp at h
  | cons a t ih =>
    intro hp last hlast
    cases t with
    | nil =>
      simp only [List.getLast?_singleton, Option.some.injEq] at hlast
      subst hlast
      refine ⟨List.mem_singleton_self _, ?_⟩
      intro x hx
      rw [List.mem_singleton] at hx
      subst hx
      exact hrefl _
    | cons b u =>
      rw [List.getLast?_cons_cons] at hlast
      have hp' := List.pairwise_cons.mp hp
      obtain ⟨hmem, hall⟩ := ih hp'.2 last hlast
      refine ⟨List.mem_cons_of_mem _ hmem, ?_⟩
      intro x hx
      rcases List.mem_cons.mp hx with rfl | hx
      · exact hp'.1 last hmem
      · exact hall x hx

theorem groupNameLE_total (lbl a b : String) :
    (groupNameLE lbl a b || groupNameLE lbl b a) = true := by
  unfold groupNameLE
  by_cases hl : lbl = ""
  · rw [if_pos hl, if_pos hl]
    rcases ciLe_total a b with h | h <;> simp [h]
  · rw [if_neg hl, if_neg hl]
    cases haM : ciEq a lbl <;> cases hbM : ciEq b lbl <;>
      simp [haM, hbM] <;>
      rcases ciLe_total a b with h | h <;> simp [h]

theorem listLe_refl (a : List Char) : listLe a a = true := by
  induction a with
  | nil => rfl
  | cons x xs ih => simp [listLe, ih]

theorem namingSkillsOf_singleton (r : Item) (hs : isSkillType r = true)
    (ht : namingTruthy r.name = true) : namingSkillsOf [r] = [r] := by
  unfold namingSkillsOf
  rw [List.filter_cons, hs, ht]
  rfl

theorem reserved_discarded (items : List Item) (i : Item) (p : ParsedSkill)
    (hp : parsePrefixedSkillName i.name = some p)
    (hres : isReservedClassName p.className = true) :
    i ∉ (groupActorSkills items).2 ∧
      ∀ k es, (k, es) ∈ (groupActorSkills items).1 → ∀ e ∈ es, e.item ≠ i := by
  constructor
  · intro hmem
    have hocc := occPred_of_mem_occ items i hmem
    unfold occPred at hocc
    simp [hp] at hocc
  · intro k es hkes e he hei
    obtain ⟨hpe, hre, _, _⟩ := groupActorSkills_groups_entryOK items k es hkes e he
    rw [hei] at hpe
    have heq : e.parsed = p := Option.some.inj (hpe.symm.trans hp)
    rw [heq, hres] at hre
    exact absurd hre (by simp)

theorem parseNamingItem_marker (tail : List Char) :
    parseNamingItem ⟨"(CUSTOMCLASS)".data ++ tail⟩
      = match matchLabelTail tail with
        | some lbl => some ⟨trimChars lbl⟩
        | none => none := rfl

theorem parsePrefixed_shape (body tail : List Char) (hb : ')' ∉ body) :
    parsePrefixedSkillName ⟨'(' :: (body ++ ')' :: tail)⟩
      = match matchPrefixBody body, matchTail tail with
        | some (cls, w), some rest =>
          some ⟨⟨trimChars cls⟩,
            (match w with | some ds => digitsToNat ds | none => 0),
            ⟨trimChars rest⟩⟩
        | _, _ => none := by
  simp only [parsePrefixedSkillName, splitFirstRparen_append body tail hb]

theorem marker_ws_namingTruthy (w : List Char) (hws : ∀ c ∈ w, isJSWS c = true) :
    namingTruthy ⟨"(CUSTOMCLASS)".data ++ w⟩ = false := by
  unfold namingTruthy
  rw [parseNamingItem_marker]
  have hdw : w.dropWhile isJSWS = [] := List.dropWhile_eq_nil_iff.mpr hws
  unfold matchLabelTail
  rw [hdw]
  cases hwr : w.reverse with
  | nil => rfl
  | cons c t =>
    have hcw : isJSWS c = true := hws c (by
      rw [← List.mem_reverse, hwr]
      exact List.mem_cons_self _ _)
    cases hlt : isLineTerm c with
    | true => simp only [if_pos hlt]
    | false =>
      simp only [hlt, Bool.false_eq_true, if_false]
      have : trimChars [c] = [] := trimChars_of_all_ws [c] (by
        intro x hx
        rw [List.mem_singleton] at hx
        exact hx ▸ hcw)
      rw [this]
      rfl

theorem marker_ws_parse (w : List Char) (hws : ∀ c ∈ w, isJSWS c = true) :
    parsePrefixedSkillName ⟨"(CUSTOMCLASS)".data ++ w⟩
      = some ⟨"CUSTOMCLASS", 0, ""⟩ := by
  have h0 : ("(CUSTOMCLASS)".data ++ w : List Char)
      = '(' :: ("CUSTOMCLASS".data ++ ')' :: w) := rfl
  rw [h0, parsePrefixed_shape "CUSTOMCLASS".data w (by decide)]
  have hdw : w.dropWhile isJSWS = [] := List.dropWhile_eq_nil_iff.mpr hws
  have hmt : matchTail w = some [] := by
    unfold matchTail
    rw [hdw]
    rfl
  rw [hmt]
  have hmb : matchPrefixBody "CUSTOMCLASS".data
      = some ("CUSTOMCLASS".data, none) := by decide
  rw [hmb]
  decide

/-- C1: every name of the class-prefixed shape — an opening parenthesis,
class-name text not containing a right parenthesis, an optional caret
followed by decimal digits, a closing parenthesis, then skill-name text —
parses to the record with className the class text trimmed, weight the
decimal value of the digit group (0 when absent) and skillName the
remaining text trimmed; in particular the two specification examples.  In
the digit-absent conjunct the class text must not itself end in a caret
followed by digits (the regular expression would read such a tail as the
weight group), and in the digit-present conjunct it must contain a
non-whitespace character; the skill-name text must be free of line
terminators, which the regular-expression dot cannot match. -/
theorem claim_C1_parse_prefixed :
    (∀ cls rest : List Char, cls ≠ [] → ')' ∉ cls → endsCaretDigits cls = false →
      (∀ c ∈ rest, isLineTerm c = false) →
      parsePrefixedSkillName ⟨'(' :: (cls ++ ')' :: rest)⟩
        = some ⟨⟨trimChars cls⟩, 0, ⟨trimChars rest⟩⟩) ∧
    (∀ cls ds rest : List Char, (∃ c ∈ cls, isJSWS c = false) → ')' ∉ cls →
      ds ≠ [] → (∀ c ∈ ds, c.isDigit = true) → (∀ c ∈ rest, isLineTerm c = false) →
      parsePrefixedSkillName ⟨'(' :: ((cls ++ '^' :: ds) ++ ')' :: rest)⟩
        = some ⟨⟨trimChars cls⟩, digitsToNat ds, ⟨trimChars rest⟩⟩) ∧
    parseName "(Barbarian^10)Natural Armor"
      = ParsedToken.prefixed ⟨"Barbarian", 10, "Natural Armor"⟩ ∧
    parseName "(Barbarian)Rage" = ParsedToken.prefixed ⟨"Barbarian", 0, "Rage"⟩ :=
  ⟨parsePrefixed_noWeight, parsePrefixed_withWeight, by decide, by decide⟩

/-- Witness for C1, discharging every hypothesis at concrete inputs. -/
theorem claim_C1_parse_prefixed_witness :
    parsePrefixedSkillName ⟨'(' :: ("Druid".data ++ ')' :: "Vines".data)⟩
      = some ⟨⟨trimChars "Druid".data⟩, 0, ⟨trimChars "Vines".data⟩⟩ ∧
    parsePrefixedSkillName ⟨'(' :: (("Ranger".data ++ '^' :: "5".data) ++ ')' :: "Track".data)⟩
      = some ⟨⟨trimChars "Ranger".data⟩, digitsToNat "5".data, ⟨trimChars "Track".data⟩⟩ :=
  ⟨claim_C1_parse_prefixed.1 "Druid".data "Vines".data (by decide) (by decide)
      (by decide) (by decide),
   claim_C1_parse_prefixed.2.1 "Ranger".data "5".data "Track".data (by decide)
      (by decide) (by decide) (by decide) (by decide)⟩

/-- C2: exactly one token variant applies to any name (the composite
parser is a total function into the three-variant type, first conjunct),
and the naming-token pattern takes precedence: a name whose naming match
has label text (a truthy, non-empty trimmed label) is classified as the
naming token no matter whether the class-prefixed pattern also matches;
both specification examples give the naming token with label Bard. -/
theorem claim_C2_naming_precedence :
    (∀ name : String, (∃ l, parseName name = ParsedToken.naming l) ∨
      (∃ p, parseName name = ParsedToken.prefixed p) ∨
      parseName name = ParsedToken.plain) ∧
    (∀ name l, parseNamingItem name = some l → l ≠ "" →
      parseName name = ParsedToken.naming l) ∧
    parseName "(CUSTOMCLASS)Bard" = ParsedToken.naming "Bard" ∧
    parseName "(customclass) Bard" = ParsedToken.naming "Bard" := by
  refine ⟨?_, ?_, by decide, by decide⟩
  · intro name
    cases h : parseName name with
    | naming l => exact Or.inl ⟨l, rfl⟩
    | prefixed p => exact Or.inr (Or.inl ⟨p, rfl⟩)
    | plain => exact Or.inr (Or.inr rfl)
  · intro name l h hl
    simp only [parseName, h]
    rw [if_neg hl]

/-- Witness for C2 at a concrete input. -/
theorem claim_C2_naming_precedence_witness :
    parseName "(CUSTOMCLASS)Salesman" = ParsedToken.naming "Salesman" :=
  claim_C2_naming_precedence.2.1 "(CUSTOMCLASS)Salesman" "Salesman"
    (by decide) (by decide)

/-- C4: with a non-empty preferred class name, orderGroupNames returns a
permutation of the keys in which a case-insensitively matching key never
follows a non-matching one and any two non-matching keys appear in
ascending case-insensitive order; the specification example sorts to
Barbarian, Alchemist, Druid. -/
theorem claim_C4_order_group_names :
    (∀ (names : List String) (pref : String), pref ≠ "" →
      (orderGroupNames names pref).Perm names ∧
      (orderGroupNames names pref).Pairwise (fun a b =>
        (ciEq b pref = true → ciEq a pref = true) ∧
        (ciEq a pref = false → ciEq b pref = false → ciLe a b = true))) ∧
    orderGroupNames ["Barbarian", "Druid", "Alchemist"] "Barbarian"
      = ["Barbarian", "Alchemist", "Druid"] := by
  refine ⟨?_, by decide⟩
  intro names pref hpref
  refine ⟨perm_sortLE (groupNameLE pref) names, ?_⟩
  have hs := pairwise_sortLE (groupNameLE pref)
    (fun a b c => groupNameLE_trans pref a b c)
    (fun a b => groupNameLE_total pref a b) names
  refine hs.imp ?_
  intro a b hab
  unfold groupNameLE at hab
  rw [if_neg hpref] at hab
  constructor
  · intro hbM
    cases haM : ciEq a pref
    · rw [haM, hbM] at hab
      simp at hab
    · rfl
  · intro haM hbM
    rw [haM, hbM] at hab
    simpa using hab

/-- Witness for C4 at a concrete input. -/
theorem claim_C4_order_group_names_witness :
    (orderGroupNames ["Druid", "Barbarian"] "Barbarian").Perm ["Druid", "Barbarian"] ∧
    (orderGroupNames ["Druid", "Barbarian"] "Barbarian").Pairwise (fun a b =>
      (ciEq b "Barbarian" = true → ciEq a "Barbarian" = true) ∧
      (ciEq a "Barbarian" = false → ciEq b "Barbarian" = false → ciLe a b = true)) :=
  claim_C4_order_group_names.1 ["Druid", "Barbarian"] "Barbarian" (by decide)

/-- C5: a record whose name parses as a prefixed skill whose class name
case-insensitively equals the reserved marker is discarded entirely by
classification: it is neither in the occupational list nor carried by any
class group; a collection holding only the record named (CustomClass^5)Foo
classifies to the empty result. -/
theorem claim_C5_reserved_guard :
    (∀ (items : List Item) (i : Item) (p : ParsedSkill),
      parsePrefixedSkillName i.name = some p →
      isReservedClassName p.className = true →
      i ∉ (groupActorSkills items).2 ∧
        ∀ k es, (k, es) ∈ (groupActorSkills items).1 → ∀ e ∈ es, e.item ≠ i) ∧
    groupActorSkills [⟨"1", "skill", "(CustomClass^5)Foo", "", 0⟩] = ([], []) :=
  ⟨reserved_discarded, by decide⟩

/-- Witness for C5 at a concrete input. -/
theorem claim_C5_reserved_guard_witness :
    (⟨"1", "skill", "(CustomClass^5)Foo", "", 0⟩ : Item) ∉
      (groupActorSkills [⟨"1", "skill", "(CustomClass^5)Foo", "", 0⟩]).2 ∧
    ∀ k es, (k, es) ∈ (groupActorSkills
        [⟨"1", "skill", "(CustomClass^5)Foo", "", 0⟩]).1 →
      ∀ e ∈ es, e.item ≠ ⟨"1", "skill", "(CustomClass^5)Foo", "", 0⟩ :=
  claim_C5_reserved_guard.1 [⟨"1", "skill", "(CustomClass^5)Foo", "", 0⟩]
    ⟨"1", "skill", "(CustomClass^5)Foo", "", 0⟩ ⟨"CustomClass", 5, "Foo"⟩
    (by decide) (by decide)

/-- C6: classification is a total function of the record list (the
embedding returns a value for every input, so no exception surface
exists); the empty collection yields the empty result, an empty name
parses as plain, and a skill record with an empty name always lands in the
occupational bucket. -/
theorem claim_C6_totality :
    (∀ (items : List Item) (i : Item), i ∈ items → isSkillType i = true →
      i.name = "" → i ∈ (groupActorSkills items).2) ∧
    groupActorSkills [] = ([], []) ∧
    parseName "" = ParsedToken.plain := by
  refine ⟨?_, by decide, by decide⟩
  intro items i hi hskill hname
  apply mem_occ_of_occPred items i hi
  unfold occPred
  rw [hskill, hname]
  decide

/-- Witness for C6 at a concrete input. -/
theorem claim_C6_totality_witness :
    (⟨"9", "skill", "", "", 0⟩ : Item) ∈
      (groupActorSkills [⟨"9", "skill", "", "", 0⟩]).2 :=
  claim_C6_totality.1 [⟨"9", "skill", "", "", 0⟩] ⟨"9", "skill", "", "", 0⟩
    (by decide) (by decide) rfl

theorem sortLE_singleton {α : Type} (le : α → α → Bool) (a : α) :
    sortLE le [a] = [a] := rfl

theorem mem_namingSkillsOf (items : List Item) (i : Item) :
    i ∈ namingSkillsOf items ↔
      i ∈ items ∧ (isSkillType i && namingTruthy i.name) = true := by
  unfold namingSkillsOf
  exact List.mem_filter

theorem getCustomClassIcon_singleton (r : Item) (hs : isSkillType r = true)
    (ht : namingTruthy r.name = true) :
    getCustomClassIcon [r]
      = match parseCustomClassIcon r.description with
        | none => DEFAULT_ICON
        | some ic =>
          if strStartsWith ic "fa-" && !strStartsWith ic "fa-solid" &&
             !strStartsWith ic "fa-regular" && !strStartsWith ic "fa-brands"
          then "fa-solid " ++ ic
          else ic := by
  unfold getCustomClassIcon
  rw [namingSkillsOf_singleton r hs ht, sortLE_singleton, List.getLast?_singleton]

/-- C3: within every class group of the classification result, members are
ordered descending by weight with ties broken by ascending case-insensitive
comparison of the parsed skill name: for positions i and j in a group, a
strictly greater weight at i than at j forces i before j, and with equal
weights a case-insensitively strictly smaller skill name at i forces i
before j. -/
theorem claim_C3_group_ordering (items : List Item) (k : String) (es : List Entry)
    (hk : (k, es) ∈ (groupActorSkills items).1) (i j : Fin es.length) :
    ((es.get i).parsed.weight > (es.get j).parsed.weight → i < j) ∧
    ((es.get i).parsed.weight = (es.get j).parsed.weight →
      ciLt (es.get i).parsed.skillName (es.get j).parsed.skillName = true →
      i < j) := by
  have hs := groupActorSkills_groups_sorted items k es hk
  rw [List.pairwise_iff_get] at hs
  constructor
  · intro hw
    rcases lt_trichotomy i j with h | h | h
    · exact h
    · rw [h] at hw
      omega
    · exfalso
      have hji := hs j i h
      unfold entryLE at hji
      by_cases he : (es.get j).parsed.weight = (es.get i).parsed.weight
      · omega
      · rw [if_neg he, decide_eq_true_eq] at hji
        omega
  · intro hw hlt
    rcases lt_trichotomy i j with h | h | h
    · exact h
    · exfalso
      rw [h] at hlt
      unfold ciLt at hlt
      have hfalse := listLt_listLe _ _ hlt
      have hrefl := listLe_refl (lowerChars (es.get j).parsed.skillName)
      rw [hfalse] at hrefl
      exact absurd hrefl (by simp)
    · exfalso
      have hji := hs j i h
      unfold entryLE at hji
      rw [if_pos hw.symm] at hji
      unfold ciLe at hji
      unfold ciLt at hlt
      have hfalse := listLt_listLe _ _ hlt
      rw [hfalse] at hji
      exact absurd hji (by simp)

/-- Witness for C3 at a concrete classification with two group members. -/
theorem claim_C3_group_ordering_witness :
    (⟨0, by decide⟩ : Fin ([(⟨⟨"2", "skill", "(Barbarian^10)Rage", "", 0⟩,
        ⟨"Barbarian", 10, "Rage"⟩⟩ : Entry),
      ⟨⟨"3", "skill", "(Barbarian)Natural Armor", "", 0⟩,
        ⟨"Barbarian", 0, "Natural Armor"⟩⟩].length))
      < ⟨1, by decide⟩ :=
  (claim_C3_group_ordering
    [⟨"2", "skill", "(Barbarian^10)Rage", "", 0⟩,
     ⟨"3", "skill", "(Barbarian)Natural Armor", "", 0⟩]
    "Barbarian"
    [⟨⟨"2", "skill", "(Barbarian^10)Rage", "", 0⟩, ⟨"Barbarian", 10, "Rage"⟩⟩,
     ⟨⟨"3", "skill", "(Barbarian)Natural Armor", "", 0⟩,
       ⟨"Barbarian", 0, "Natural Armor"⟩⟩]
    (by decide) ⟨0, by decide⟩ ⟨1, by decide⟩).1 (by decide)

/-- C7: with at least one naming record present (also when several are,
the misconfiguration case), getCustomClassLabel does not fail and returns
the non-empty label of a naming record whose updateTime is maximal among
all naming records of the collection; on a concrete tie between two naming
records the stable ascending sort deterministically makes the later input
record supply the label. -/
theorem claim_C7_label_resolution :
    (∀ items : List Item,
      (∃ i ∈ items, isSkillType i = true ∧ namingTruthy i.name = true) →
      ∃ r ∈ items, isSkillType r = true ∧ namingTruthy r.name = true ∧
        (∀ r' ∈ items, isSkillType r' = true → namingTruthy r'.name = true →
          r'.updateTime ≤ r.updateTime) ∧
        ∃ l, parseNamingItem r.name = some l ∧ l ≠ "" ∧
          getCustomClassLabel items = some l) ∧
    getCustomClassLabel [⟨"a", "skill", "(CUSTOMCLASS)First", "", 5⟩,
      ⟨"b", "skill", "(CUSTOMCLASS)Second", "", 5⟩] = some "Second" := by
  refine ⟨?_, by decide⟩
  rintro items ⟨i, hi, hski, htr⟩
  have hmem : i ∈ sortLE updateLE (namingSkillsOf items) := by
    rw [mem_sortLE, mem_namingSkillsOf]
    exact ⟨hi, by rw [hski, htr]; rfl⟩
  cases hlast : (sortLE updateLE (namingSkillsOf items)).getLast? with
  | none =>
    rw [List.getLast?_eq_none_iff] at hlast
    rw [hlast] at hmem
    simp at hmem
  | some last =>
    have hsorted := pairwise_sortLE updateLE (fun a b c => updateLE_trans a b c)
      (fun a b => updateLE_total a b) (namingSkillsOf items)
    have hrefl : ∀ a : Item, updateLE a a = true := by
      intro a
      unfold updateLE
      simp
    obtain ⟨hlmem, hmax⟩ := getLast?_rel hrefl _ hsorted last hlast
    have hlmem' : last ∈ namingSkillsOf items := (mem_sortLE _ _ _).mp hlmem
    have hfl := (mem_namingSkillsOf items last).mp hlmem'
    have hand := hfl.2
    rw [Bool.and_eq_true] at hand
    refine ⟨last, hfl.1, hand.1, hand.2, ?_, ?_⟩
    · intro r' hr' hs' ht'
      have hr'm : r' ∈ sortLE updateLE (namingSkillsOf items) := by
        rw [mem_sortLE, mem_namingSkillsOf]
        exact ⟨hr', by rw [hs', ht']; rfl⟩
      have hle := hmax r' hr'm
      unfold updateLE at hle
      rwa [decide_eq_true_eq] at hle
    · have htl := hand.2
      unfold namingTruthy at htl
      cases hpl : parseNamingItem last.name with
      | none =>
        rw [hpl] at htl
        simp at htl
      | some l =>
        rw [hpl] at htl
        refine ⟨l, rfl, by simpa using htl, ?_⟩
        unfold getCustomClassLabel
        rw [hlast]
        exact hpl

/-- Witness for C7 at a concrete input. -/
theorem claim_C7_label_resolution_witness :
    ∃ r ∈ [(⟨"a", "skill", "(CUSTOMCLASS)Bard", "", 3⟩ : Item)],
      isSkillType r = true ∧ namingTruthy r.name = true ∧
      (∀ r' ∈ [(⟨"a", "skill", "(CUSTOMCLASS)Bard", "", 3⟩ : Item)],
        isSkillType r' = true → namingTruthy r'.name = true →
        r'.updateTime ≤ r.updateTime) ∧
      ∃ l, parseNamingItem r.name = some l ∧ l ≠ "" ∧
        getCustomClassLabel [⟨"a", "skill", "(CUSTOMCLASS)Bard", "", 3⟩] = some l :=
  claim_C7_label_resolution.1 [⟨"a", "skill", "(CUSTOMCLASS)Bard", "", 3⟩]
    (by decide)

/-- C8: for a naming record, the icon resolver returns the extracted icon
token with the default style family prepended when the token starts with
fa- but carries none of the three recognized family markers, and returns
the default icon identifier unchanged when the description holds no (or a
malformed, hence rejected) icon directive; the specification example
yields fa-solid fa-axe-battle. -/
theorem claim_C8_icon_resolution :
    (∀ r : Item, isSkillType r = true → namingTruthy r.name = true →
      parseCustomClassIcon r.description = none →
      getCustomClassIcon [r] = DEFAULT_ICON) ∧
    (∀ (r : Item) (ic : String), isSkillType r = true → namingTruthy r.name = true →
      parseCustomClassIcon r.description = some ic →
      strStartsWith ic "fa-" = true → strStartsWith ic "fa-solid" = false →
      strStartsWith ic "fa-regular" = false → strStartsWith ic "fa-brands" = false →
      getCustomClassIcon [r] = "fa-solid " ++ ic) ∧
    getCustomClassIcon [⟨"i", "skill", "(CUSTOMCLASS)Barbarian",
      "<p>icon: fa-axe-battle</p>", 0⟩] = "fa-solid fa-axe-battle" ∧
    getCustomClassIcon [⟨"i", "skill", "(CUSTOMCLASS)Barbarian",
      "<h3>Barbarian</h3>", 0⟩] = DEFAULT_ICON := by
  refine ⟨?_, ?_, by decide, by decide⟩
  · intro r hs ht hpi
    rw [getCustomClassIcon_singleton r hs ht, hpi]
  · intro r ic hs ht hpi h1 h2 h3 h4
    rw [getCustomClassIcon_singleton r hs ht, hpi]
    simp [h1, h2, h3, h4]

/-- Witness for C8 at concrete inputs. -/
theorem claim_C8_icon_resolution_witness :
    getCustomClassIcon [⟨"i", "skill", "(CUSTOMCLASS)X", "", 1⟩] = DEFAULT_ICON ∧
    getCustomClassIcon [⟨"i", "skill", "(CUSTOMCLASS)X", "<p>icon: fa-mask</p>", 1⟩]
      = "fa-solid " ++ "fa-mask" :=
  ⟨claim_C8_icon_resolution.1 ⟨"i", "skill", "(CUSTOMCLASS)X", "", 1⟩
      (by decide) (by decide) (by decide),
   claim_C8_icon_resolution.2.1 ⟨"i", "skill", "(CUSTOMCLASS)X", "<p>icon: fa-mask</p>", 1⟩
      "fa-mask" (by decide) (by decide) (by decide) (by decide) (by decide)
      (by decide) (by decide)⟩

/-- C9 counterexample: the name ()Foo has the class-prefixed shape with
empty class-name text, yet parsePrefixedSkillName rejects it — the lazy
capture of REGEX_PREFIXED_SKILL requires at least one character — so the
name is classified as plain, not as a PrefixedSkill with empty className
as the claim states. -/
theorem claim_C9_counterexample :
    parsePrefixedSkillName "()Foo" = none ∧
    parseName "()Foo" = ParsedToken.plain := by
  exact ⟨by decide, by decide⟩

/-- C9 amended: a class-prefixed name whose class-name segment is non-empty
but trims to the empty string (for example a single space, as in the name
with a blank between the parentheses) still parses as a PrefixedSkill with
the empty string as degenerate class name, and classification handles such
a record without failing, grouping it under the empty key; a completely
empty segment, as in ()Foo, does not match the pattern and degrades to
plain. -/
theorem claim_C9_amended :
    (∀ w : List Char, w ≠ [] → (∀ c ∈ w, isJSWS c = true) →
      parsePrefixedSkillName ⟨'(' :: (w ++ ')' :: "Foo".data)⟩
        = some ⟨"", 0, "Foo"⟩) ∧
    parseName "( )Foo" = ParsedToken.prefixed ⟨"", 0, "Foo"⟩ ∧
    groupActorSkills [⟨"1", "skill", "( )Foo", "", 0⟩]
      = ([("", [⟨⟨"1", "skill", "( )Foo", "", 0⟩, ⟨"", 0, "Foo"⟩⟩])], []) := by
  refine ⟨?_, by decide, by decide⟩
  intro w hne hws
  have hnp : ')' ∉ w := by
    intro hm
    exact absurd (hws _ hm) (by decide)
  have hnc : endsCaretDigits w = false := by
    unfold endsCaretDigits
    cases hd : w.reverse.dropWhile Char.isDigit with
    | nil => simp [hd]
    | cons c t =>
      have hcmem : c ∈ w := by
        have hc1 : c ∈ w.reverse.dropWhile Char.isDigit := by
          rw [hd]
          exact List.mem_cons_self _ _
        exact List.mem_reverse.mp ((List.dropWhile_sublist _).mem hc1)
      have hc : c ≠ '^' := by
        intro hceq
        have hcw := hws c hcmem
        rw [hceq] at hcw
        exact absurd hcw (by decide)
      simp [hd, hc]
  have hrest : ∀ c ∈ ("Foo".data : List Char), isLineTerm c = false := by decide
  have h := parsePrefixed_noWeight w "Foo".data hne hnp hnc hrest
  rw [h, trimChars_of_all_ws w hws]
  decide

/-- Witness for the amended C9 at a concrete input. -/
theorem claim_C9_amended_witness :
    parsePrefixedSkillName ⟨'(' :: (" ".data ++ ')' :: "Foo".data)⟩
      = some ⟨"", 0, "Foo"⟩ :=
  claim_C9_amended.1 " ".data (by decide) (by decide)

/-- C10: a skill record whose name is the reserved marker in parentheses
followed by nothing or only whitespace is not treated as a naming token —
its naming-pattern label trims to the falsy empty string, so the filter the
label and icon resolvers select naming records with ignores it — while the
prefixed-skill pattern reads the marker itself as the class name, so the
reserved-token guard keeps the record out of the class groups and out of
the occupational bucket alike. -/
theorem claim_C10_reserved_empty_label :
    ∀ w : List Char, (∀ c ∈ w, isJSWS c = true) →
      namingTruthy ⟨"(CUSTOMCLASS)".data ++ w⟩ = false ∧
      (∀ (items : List Item) (i : Item), i.name = ⟨"(CUSTOMCLASS)".data ++ w⟩ →
        i ∉ namingSkillsOf items) ∧
      parsePrefixedSkillName ⟨"(CUSTOMCLASS)".data ++ w⟩
        = some ⟨"CUSTOMCLASS", 0, ""⟩ ∧
      (∀ (items : List Item) (i : Item), i.name = ⟨"(CUSTOMCLASS)".data ++ w⟩ →
        i ∉ (groupActorSkills items).2 ∧
        ∀ k es, (k, es) ∈ (groupActorSkills items).1 → ∀ e ∈ es, e.item ≠ i) := by
  intro w hws
  have h1 := marker_ws_namingTruthy w hws
  have h3 := marker_ws_parse w hws
  refine ⟨h1, ?_, h3, ?_⟩
  · intro items i hname hmem
    rw [mem_namingSkillsOf] at hmem
    have hand := hmem.2
    rw [Bool.and_eq_true] at hand
    have ht := hand.2
    rw [hname, h1] at ht
    exact absurd ht (by simp)
  · intro items i hname
    apply reserved_discarded items i ⟨"CUSTOMCLASS", 0, ""⟩
    · rw [hname]
      exact h3
    · decide

/-- Witness for C10 at a concrete whitespace tail. -/
theorem claim_C10_reserved_empty_label_witness :
    namingTruthy ⟨"(CUSTOMCLASS)".data ++ "   ".data⟩ = false ∧
    (∀ (items : List Item) (i : Item),
      i.name = ⟨"(CUSTOMCLASS)".data ++ "   ".data⟩ →
      i ∉ namingSkillsOf items) ∧
    parsePrefixedSkillName ⟨"(CUSTOMCLASS)".data ++ "   ".data⟩
      = some ⟨"CUSTOMCLASS", 0, ""⟩ ∧
    (∀ (items : List Item) (i : Item),
      i.name = ⟨"(CUSTOMCLASS)".data ++ "   ".data⟩ →
      i ∉ (groupActorSkills items).2 ∧
      ∀ k es, (k, es) ∈ (groupActorSkills items).1 → ∀ e ∈ es, e.item ≠ i) :=
  claim_C10_reserved_empty_label "   ".data (by decide)

end DCCSheet
